/-
Verification of the token store in `monarch_mcp_server/secure_session.py`.

The source module persists one authentication token under the reserved key
`MONARCH_TOKEN` in a flat `KEY=VALUE` text file (`.env`), loads the token from
the process environment, builds a client from it, and best-effort deletes a
fixed list of legacy session artifacts.

Embedding choices:
* file content is a raw `List Char`; a missing file is `none : Option (List Char)`;
* Python text-mode reading is modeled faithfully: universal-newline translation
  (`\r\n` and lone `\r` become `\n`), line splitting, and `str.strip`
  (which removes the full `str.isspace()` whitespace set, ASCII and Unicode);
* the parsed mapping is an insertion-ordered association list with unique keys,
  exactly like a Python `dict` built by repeated assignment;
* fallible I/O is modeled by an oracle (`IOOracle`) that makes the read or the
  write raise, so that the propagate-vs-suppress policies of `save_token` and
  `delete_token` can be stated;
* the legacy-file cleanup works on a small explicit file-system state.
-/
import Mathlib

set_option maxRecDepth 8000

namespace SecureSession

/-- Python whitespace as removed by `str.strip()` - exactly the
`str.isspace()` character set: tab, newline, vertical tab, form feed,
carriage return, space, the file/group/record/unit separators,
next line (U+0085), no-break space (U+00A0), Ogham space mark (U+1680),
the fixed-width spaces U+2000 through U+200A, the line and paragraph
separators (U+2028, U+2029), narrow no-break space (U+202F), medium
mathematical space (U+205F), and ideographic space (U+3000). -/
def pyWs (c : Char) : Bool :=
  c == ' ' || c == '\t' || c == '\n' || c == '\r' || c == '\x0b' || c == '\x0c' ||
  c == '\x1c' || c == '\x1d' || c == '\x1e' || c == '\x1f' ||
  c == '\x85' || c == '\xa0' || c == '\u1680' ||
  c == '\u2000' || c == '\u2001' || c == '\u2002' || c == '\u2003' ||
  c == '\u2004' || c == '\u2005' || c == '\u2006' || c == '\u2007' ||
  c == '\u2008' || c == '\u2009' || c == '\u200a' ||
  c == '\u2028' || c == '\u2029' || c == '\u202f' || c == '\u205f' ||
  c == '\u3000'

/-- Python `str.rstrip()` on a character list. -/
def pyRstrip (s : List Char) : List Char :=
  (s.reverse.dropWhile pyWs).reverse

/-- Python `str.strip()` on a character list. -/
def pyStrip (s : List Char) : List Char :=
  pyRstrip (s.dropWhile pyWs)

/-- Universal-newline translation performed by Python text-mode reads:
`\r\n` and a lone `\r` both become `\n`. -/
def nlTranslate : List Char → List Char
  | [] => []
  | [c] => if c = '\r' then ['\n'] else [c]
  | c :: d :: rest =>
    if c = '\r' then
      if d = '\n' then '\n' :: nlTranslate rest
      else '\n' :: nlTranslate (d :: rest)
    else c :: nlTranslate (d :: rest)

/-- Split on `'\n'`; the last segment is the (possibly empty) tail after the
final newline. -/
def splitNl : List Char → List (List Char)
  | [] => [[]]
  | c :: rest =>
    if c = '\n' then [] :: splitNl rest
    else
      match splitNl rest with
      | [] => [[c]]
      | l :: ls => (c :: l) :: ls

/-- Python file iteration yields no final empty line when the content ends in a
newline (and no lines at all for empty content). -/
def dropTrailingEmpty : List (List Char) → List (List Char)
  | [] => []
  | [l] => if l = [] then [] else [l]
  | l :: l2 :: rest => l :: dropTrailingEmpty (l2 :: rest)

/-- The list of lines `for line in f` iterates over (without their trailing
newline characters, which `str.strip` would discard anyway). -/
def readLines (content : List Char) : List (List Char) :=
  dropTrailingEmpty (splitNl (nlTranslate content))

/-- Python `line.split('=', 1)`: key before the first `'='`, value after it. -/
def splitFirstEq (s : List Char) : List Char × List Char :=
  (s.takeWhile (fun c => decide (c ≠ '=')),
   (s.dropWhile (fun c => decide (c ≠ '='))).tail)

/-- One line of the `.env` reader in `save_token`/`delete_token`:
`line = line.strip(); if line and not line.startswith('#') and '=' in line:
key, value = line.split('=', 1)`. -/
def parseLine (line : List Char) : Option (List Char × List Char) :=
  let s := pyStrip line
  if s ≠ [] ∧ s.head? ≠ some '#' ∧ '=' ∈ s then some (splitFirstEq s) else none

/-- The parsed `.env` mapping: insertion-ordered key/value pairs. -/
abbrev EnvMap := List (List Char × List Char)

def hasKey (m : EnvMap) (k : List Char) : Bool :=
  m.any (fun p => decide (p.1 = k))

def lookupA : EnvMap → List Char → Option (List Char)
  | [], _ => none
  | p :: rest, k => if p.1 = k then some p.2 else lookupA rest k

/-- Python `d[k] = v` on a dict: update in place if the key is present
(keeping its insertion position), otherwise append. -/
def upsertA (m : EnvMap) (k v : List Char) : EnvMap :=
  if hasKey m k then m.map (fun p => if p.1 = k then (k, v) else p)
  else m ++ [(k, v)]

/-- Python `del d[k]`; the mappings built by the parser hold each key at most
once, so removing every pair with the key equals removing the dict entry. -/
def eraseKeyA (m : EnvMap) (k : List Char) : EnvMap :=
  m.filter (fun p => decide (p.1 ≠ k))

/-- One iteration of the `for line in f` parsing loop. -/
def parseStep (m : EnvMap) (line : List Char) : EnvMap :=
  match parseLine line with
  | some kv => upsertA m kv.1 kv.2
  | none => m

def parseEnvLines (lines : List (List Char)) : EnvMap :=
  lines.foldl parseStep []

/-- The whole `env_content` dict built from a file's content. -/
def parseEnv (content : List Char) : EnvMap :=
  parseEnvLines (readLines content)

/-- `env_content = {}` when `ENV_FILE_PATH.exists()` is false. -/
def parseEnvOpt : Option (List Char) → EnvMap
  | none => []
  | some c => parseEnv c

def contentOf : Option (List Char) → List Char
  | none => []
  | some c => c

/-- The characters `f.write(f"{key}={value}\n")` emits for one pair, without
the newline. -/
def renderLine (p : List Char × List Char) : List Char :=
  p.1 ++ '=' :: p.2

/-- The full rewrite loop `for key, value in env_content.items(): f.write(...)`. -/
def render (m : EnvMap) : List Char :=
  (m.map (fun p => renderLine p ++ ['\n'])).flatten

/-- The reserved key, used both as environment-variable name and as file key. -/
def MONARCH_TOKEN_ENV_VAR : String := "MONARCH_TOKEN"

/-- The reserved key as a character list (file-layer form). -/
def monarchTokenKey : List Char := MONARCH_TOKEN_ENV_VAR.toList

/-- File content written by a successful `save_token(token)`. -/
def saveTokenFile (fs : Option (List Char)) (token : List Char) : List Char :=
  render (upsertA (parseEnvOpt fs) monarchTokenKey token)

/-- `delete_token` rewrites the file only when the reserved key was parsed. -/
def deleteTokenWrites (fs : Option (List Char)) : Bool :=
  hasKey (parseEnvOpt fs) monarchTokenKey

/-- File state after a successful `delete_token()`. -/
def deleteTokenFile (fs : Option (List Char)) : Option (List Char) :=
  if deleteTokenWrites fs then
    some (render (eraseKeyA (parseEnvOpt fs) monarchTokenKey))
  else fs

/-- `load_token`: `token = os.getenv(MONARCH_TOKEN_ENV_VAR); return token if
token else None`. Reads only the process environment, never the file; the
only operation is an environment lookup, which cannot raise. -/
def loadToken (env : String → Option String) : Option String :=
  match env MONARCH_TOKEN_ENV_VAR with
  | some token => if token = "" then none else some token
  | none => none

/-- External client type: constructible from a token string and exposing a
readable `token` attribute (the `monarchmoney` library interface). -/
structure MonarchMoney where
  token : String

/-- `get_authenticated_client`: absent token yields `none`; otherwise construct
the client, and a construction failure (`mk` returning an error) is caught and
converted to `none`. -/
def getAuthenticatedClient {E : Type} (env : String → Option String)
    (mk : String → Except E MonarchMoney) : Option MonarchMoney :=
  match loadToken env with
  | none => none
  | some t =>
    match mk t with
    | Except.ok c => some c
    | Except.error _ => none

/-- Injected I/O failures: whether reading the `.env` file raises, and whether
writing it raises. -/
structure IOOracle (E : Type) where
  readErr : Option E
  writeErr : Option E

def readEnvFile {E : Type} (o : IOOracle E) (fs : Option (List Char)) :
    Except E (Option (List Char)) :=
  match o.readErr with
  | some e => Except.error e
  | none => Except.ok fs

def writeEnvFile {E : Type} (o : IOOracle E) (newContent : List Char) :
    Except E (Option (List Char)) :=
  match o.writeErr with
  | some e => Except.error e
  | none => Except.ok (some newContent)

/-- `save_token` under fallible I/O. The surrounding `try`/`except` logs and
then re-raises, so the propagated error is exactly the underlying one.
(The trailing `_cleanup_old_session_files()` call catches every exception per
path and so contributes no failure; it acts on other files than `.env`.) -/
def saveTokenRun {E : Type} (o : IOOracle E) (fs : Option (List Char))
    (token : List Char) : Except E (Option (List Char)) :=
  match readEnvFile o fs with
  | Except.error e => Except.error e
  | Except.ok c => writeEnvFile o (saveTokenFile c token)

/-- The `try` block of `delete_token` under fallible I/O. -/
def deleteTokenBody {E : Type} (o : IOOracle E) (fs : Option (List Char)) :
    Except E (Option (List Char)) :=
  match readEnvFile o fs with
  | Except.error e => Except.error e
  | Except.ok c =>
    if deleteTokenWrites c then
      writeEnvFile o (render (eraseKeyA (parseEnvOpt c) monarchTokenKey))
    else Except.ok c

/-- `delete_token` catches every exception (logs it) and returns normally; a
read failure leaves the file untouched, and a failed rewrite is modeled as
leaving the previous state. -/
def deleteTokenRun {E : Type} (o : IOOracle E) (fs : Option (List Char)) :
    Option (List Char) :=
  match deleteTokenBody o fs with
  | Except.ok fs2 => fs2
  | Except.error _ => fs

/-- File-system state for `_cleanup_old_session_files`: the existing files and
the existing directories. -/
structure SimpleFS where
  files : List String
  dirs : List String

def isfile (fs : SimpleFS) (p : String) : Bool := fs.files.contains p

def isdir (fs : SimpleFS) (p : String) : Bool := fs.dirs.contains p

def pexists (fs : SimpleFS) (p : String) : Bool := isfile fs p || isdir fs p

def childOf (d p : String) : Bool := (d ++ "/").isPrefixOf p

/-- `not os.listdir(path)`: the directory has no entries under it. -/
def dirEmpty (fs : SimpleFS) (d : String) : Bool :=
  !(fs.files.any (childOf d) || fs.dirs.any (childOf d))

def removeFile (fs : SimpleFS) (p : String) : SimpleFS :=
  { fs with files := fs.files.erase p }

def rmdir (fs : SimpleFS) (p : String) : SimpleFS :=
  { fs with dirs := fs.dirs.erase p }

/-- The fixed `cleanup_paths` list of the source. -/
def cleanupPaths : List String :=
  [".mm/mm_session.pickle", "monarch_session.json", ".mm"]

/-- One iteration of the cleanup loop; `fail p = true` injects an exception at
path `p`, which the per-path `try`/`except` catches and logs. -/
def cleanupStep (fail : String → Bool) (fs : SimpleFS) (p : String) : SimpleFS :=
  if fail p then fs
  else if pexists fs p then
    if isfile fs p then removeFile fs p
    else if isdir fs p && dirEmpty fs p then rmdir fs p
    else fs
  else fs

/-- `_cleanup_old_session_files`: every path is processed, failures on earlier
paths notwithstanding. -/
def cleanupOldSessionFiles (fail : String → Bool) (fs : SimpleFS) : SimpleFS :=
  cleanupPaths.foldl (cleanupStep fail) fs

/-- A character list that stays on one line of the `.env` file. -/
def lineSafe (s : List Char) : Bool :=
  s.all (fun c => decide (c ≠ '\n') && decide (c ≠ '\r'))

/-- Number of lines of `content` that parse to the key `k`. -/
def keyLines (content : List Char) (k : List Char) : Nat :=
  ((readLines content).filterMap parseLine).countP (fun p => decide (p.1 = k))

def lastValStep (k : List Char) (r : Option (List Char)) (line : List Char) :
    Option (List Char) :=
  match parseLine line with
  | some kv => if kv.1 = k then some kv.2 else r
  | none => r

/-- The value carried by the last line of `lines` that parses to key `k`. -/
def lastVal (lines : List (List Char)) (k : List Char) : Option (List Char) :=
  lines.foldl (lastValStep k) none

/-- An association-list entry that survives a render/parse round trip and
stays on its own line. -/
def GoodEntry (p : List Char × List Char) : Prop :=
  parseLine (renderLine p) = some p ∧ lineSafe (renderLine p) = true

/-! ### Lemmas about `dropWhile` and the Python strip functions -/

theorem dropWhile_cons_neg {p : Char → Bool} {c : Char} {t : List Char}
    (h : p c = false) : (c :: t).dropWhile p = c :: t := by
  simp [List.dropWhile_cons, h]

theorem dropWhile_append_neg {p : Char → Bool} {x : Char} (hx : p x = false)
    (a b : List Char) : (a ++ x :: b).dropWhile p = a.dropWhile p ++ x :: b := by
  induction a with
  | nil => simp [dropWhile_cons_neg hx]
  | cons c t ih =>
    by_cases hc : p c
    · simp [List.dropWhile_cons, hc, ih]
    · simp [List.dropWhile_cons, hc]

theorem dropWhile_idem {p : Char → Bool} (l : List Char) :
    (l.dropWhile p).dropWhile p = l.dropWhile p := by
  induction l with
  | nil => rfl
  | cons c t ih =>
    by_cases hc : p c
    · simp [List.dropWhile_cons, hc, ih]
    · simp [List.dropWhile_cons, hc]

theorem dropWhile_prefix_exists {p : Char → Bool} (l : List Char) :
    ∃ t, t ++ l.dropWhile p = l := by
  induction l with
  | nil => exact ⟨[], rfl⟩
  | cons c t ih =>
    by_cases hc : p c
    · obtain ⟨u, hu⟩ := ih
      exact ⟨c :: u, by simp [List.dropWhile_cons, hc, hu]⟩
    · exact ⟨[], by simp [List.dropWhile_cons, hc]⟩

theorem head_dropWhile_neg {p : Char → Bool} {l : List Char} {c : Char}
    {t : List Char} (h : l.dropWhile p = c :: t) : p c = false := by
  induction l with
  | nil => simp at h
  | cons a b ih =>
    by_cases ha : p a
    · rw [List.dropWhile_cons, if_pos ha] at h
      exact ih h
    · rw [List.dropWhile_cons, if_neg ha] at h
      cases h
      exact Bool.of_not_eq_true ha

theorem dropWhile_eq_self_of_head {p : Char → Bool} {c : Char} {t : List Char}
    (h : (c :: t).dropWhile p = c :: t) : p c = false := by
  by_cases hc : p c
  · rw [List.dropWhile_cons, if_pos hc] at h
    have hlen := congrArg List.length h
    have hle := (List.dropWhile_sublist (l := t) p).length_le
    simp at hlen
    omega
  · exact Bool.of_not_eq_true hc

theorem pyRstrip_nil : pyRstrip [] = [] := rfl

theorem pyRstrip_append_cons {x : Char} (hx : pyWs x = false)
    (a b : List Char) : pyRstrip (a ++ x :: b) = a ++ x :: pyRstrip b := by
  unfold pyRstrip
  have h1 : (a ++ x :: b).reverse = b.reverse ++ x :: a.reverse := by simp
  rw [h1, dropWhile_append_neg hx]
  simp

theorem pyRstrip_idem (l : List Char) : pyRstrip (pyRstrip l) = pyRstrip l := by
  unfold pyRstrip
  rw [List.reverse_reverse, dropWhile_idem]

theorem pyRstrip_prefix_eq (l : List Char) : ∃ w, pyRstrip l ++ w = l := by
  obtain ⟨t, ht⟩ := dropWhile_prefix_exists (p := pyWs) l.reverse
  refine ⟨t.reverse, ?_⟩
  have := congrArg List.reverse ht
  simpa [pyRstrip] using this

theorem dropWhile_pyRstrip {p : Char → Bool} {t : List Char}
    (h : t.dropWhile p = t) : (pyRstrip t).dropWhile p = pyRstrip t := by
  cases t with
  | nil => simp [pyRstrip_nil]
  | cons c t2 =>
    have hc : p c = false := dropWhile_eq_self_of_head h
    obtain ⟨w, hw⟩ := pyRstrip_prefix_eq (c :: t2)
    cases hr : pyRstrip (c :: t2) with
    | nil => rfl
    | cons d ds =>
      rw [hr] at hw
      have hd : d = c := by
        have := congrArg List.head? hw
        simpa using this
      subst hd
      exact dropWhile_cons_neg hc

theorem pyStrip_idem (l : List Char) : pyStrip (pyStrip l) = pyStrip l := by
  unfold pyStrip
  rw [dropWhile_pyRstrip (dropWhile_idem l), pyRstrip_idem]

theorem pyRstrip_sublist (l : List Char) : (pyRstrip l).Sublist l := by
  obtain ⟨w, hw⟩ := pyRstrip_prefix_eq l
  have h := List.sublist_append_left (pyRstrip l) w
  rwa [hw] at h

theorem pyStrip_sublist (l : List Char) : (pyStrip l).Sublist l :=
  (pyRstrip_sublist _).trans (List.dropWhile_sublist pyWs)

theorem lineSafe_iff {s : List Char} :
    lineSafe s = true ↔ ∀ c ∈ s, c ≠ '\n' ∧ c ≠ '\r' := by
  unfold lineSafe
  rw [List.all_eq_true]
  constructor
  · intro h c hc
    have := h c hc
    simp at this
    exact this
  · intro h c hc
    have := h c hc
    simp [this.1, this.2]

theorem lineSafe_sublist {s l : List Char} (hs : s.Sublist l)
    (h : lineSafe l = true) : lineSafe s = true := by
  rw [lineSafe_iff] at h ⊢
  exact fun c hc => h c (hs.subset hc)

theorem lineSafe_append {a b : List Char} :
    lineSafe (a ++ b) = (lineSafe a && lineSafe b) := by
  simp [lineSafe, List.all_append]

theorem lineSafe_cons {c : Char} {t : List Char} :
    lineSafe (c :: t) = ((decide (c ≠ '\n') && decide (c ≠ '\r')) && lineSafe t) := by
  simp [lineSafe]

/-! ### Lemmas about `parseLine` -/

theorem takeWhile_no_eq {k : List Char} (hk : '=' ∉ k) (v : List Char) :
    (k ++ '=' :: v).takeWhile (fun c => decide (c ≠ '=')) = k := by
  induction k with
  | nil =>
    rw [List.nil_append, List.takeWhile_cons]
    simp
  | cons c t ih =>
    have hc : c ≠ '=' := fun h => hk (h ▸ List.mem_cons_self c t)
    have ht : '=' ∉ t := fun h => hk (List.mem_cons_of_mem c h)
    have hpc : (fun c => decide (c ≠ '=')) c = true := by simp [hc]
    rw [List.cons_append, List.takeWhile_cons, if_pos hpc, ih ht]

theorem dropWhile_no_eq {k : List Char} (hk : '=' ∉ k) (v : List Char) :
    (k ++ '=' :: v).dropWhile (fun c => decide (c ≠ '=')) = '=' :: v := by
  induction k with
  | nil =>
    rw [List.nil_append, List.dropWhile_cons]
    simp
  | cons c t ih =>
    have hc : c ≠ '=' := fun h => hk (h ▸ List.mem_cons_self c t)
    have ht : '=' ∉ t := fun h => hk (List.mem_cons_of_mem c h)
    have hpc : (fun c => decide (c ≠ '=')) c = true := by simp [hc]
    rw [List.cons_append, List.dropWhile_cons, if_pos hpc, ih ht]

theorem dropWhile_eq_cons_of_mem {s : List Char} (h : '=' ∈ s) :
    ∃ t, s.dropWhile (fun c => decide (c ≠ '=')) = '=' :: t := by
  induction s with
  | nil => simp at h
  | cons c rest ih =>
    by_cases hc : c = '='
    · subst hc
      exact ⟨rest, by simp [List.dropWhile_cons]⟩
    · have : '=' ∈ rest := by
        rcases List.mem_cons.mp h with h1 | h1
        · exact absurd h1.symm hc
        · exact h1
      obtain ⟨t, ht⟩ := ih this
      have hpc : (fun c => decide (c ≠ '=')) c = true := by simp [hc]
      exact ⟨t, by rw [List.dropWhile_cons, if_pos hpc, ht]⟩

theorem mem_takeWhile_pred {p : Char → Bool} {l : List Char} {c : Char}
    (h : c ∈ l.takeWhile p) : p c = true := by
  induction l with
  | nil => simp [List.takeWhile] at h
  | cons a t ih =>
    by_cases ha : p a
    · rw [List.takeWhile_cons, if_pos ha] at h
      rcases List.mem_cons.mp h with h1 | h1
      · exact h1 ▸ ha
      · exact ih h1
    · rw [List.takeWhile_cons, if_neg ha] at h
      simp at h

theorem parseLine_eq_some {line k v : List Char}
    (h : parseLine line = some (k, v)) :
    pyStrip line = k ++ '=' :: v ∧ '=' ∉ k ∧
      (k ++ '=' :: v).head? ≠ some '#' := by
  unfold parseLine at h
  by_cases hc : pyStrip line ≠ [] ∧ (pyStrip line).head? ≠ some '#' ∧ '=' ∈ pyStrip line
  · rw [if_pos hc] at h
    have hkv : splitFirstEq (pyStrip line) = (k, v) := Option.some.inj h
    have hk : (pyStrip line).takeWhile (fun c => decide (c ≠ '=')) = k :=
      congrArg Prod.fst hkv
    have hdw : ∃ t, (pyStrip line).dropWhile (fun c => decide (c ≠ '=')) = '=' :: t :=
      dropWhile_eq_cons_of_mem hc.2.2
    obtain ⟨t, ht⟩ := hdw
    have h2 : ((pyStrip line).dropWhile (fun c => decide (c ≠ '='))).tail = v :=
      congrArg Prod.snd hkv
    rw [ht] at h2
    have hv : v = t := by
      simpa using h2.symm
    have hsplit : pyStrip line = k ++ '=' :: v := by
      rw [← hk, hv, ← ht]
      exact (List.takeWhile_append_dropWhile _ _).symm
    refine ⟨hsplit, ?_, ?_⟩
    · intro hmem
      have := mem_takeWhile_pred (hk ▸ hmem)
      simp at this
    · rw [← hsplit]
      exact hc.2.1
  · rw [if_neg hc] at h
    simp at h

theorem parseLine_of_decomp {k v : List Char} (hk : '=' ∉ k)
    (hstrip : pyStrip (k ++ '=' :: v) = k ++ '=' :: v)
    (hhead : (k ++ '=' :: v).head? ≠ some '#') :
    parseLine (k ++ '=' :: v) = some (k, v) := by
  unfold parseLine
  rw [hstrip]
  rw [if_pos]
  · unfold splitFirstEq
    rw [takeWhile_no_eq hk, dropWhile_no_eq hk]
    rfl
  · refine ⟨by simp, hhead, by simp⟩

theorem goodEntry_of_parseLine {line k v : List Char}
    (hsafe : lineSafe line = true) (h : parseLine line = some (k, v)) :
    GoodEntry (k, v) := by
  obtain ⟨hsplit, hk, hhead⟩ := parseLine_eq_some h
  constructor
  · show parseLine (k ++ '=' :: v) = some (k, v)
    refine parseLine_of_decomp hk ?_ hhead
    rw [← hsplit, pyStrip_idem]
  · show lineSafe (k ++ '=' :: v) = true
    rw [← hsplit]
    exact lineSafe_sublist (pyStrip_sublist line) hsafe

theorem monarchTokenKey_cons : monarchTokenKey = 'M' :: "ONARCH_TOKEN".toList := by
  decide

theorem eq_not_mem_monarchTokenKey : '=' ∉ monarchTokenKey := by decide

theorem lineSafe_monarchTokenKey : lineSafe monarchTokenKey = true := by decide

theorem pyStrip_mt_line (v : List Char) :
    pyStrip (monarchTokenKey ++ '=' :: v) = monarchTokenKey ++ '=' :: pyRstrip v := by
  unfold pyStrip
  have h1 : (monarchTokenKey ++ '=' :: v).dropWhile pyWs =
      monarchTokenKey ++ '=' :: v := by
    rw [monarchTokenKey_cons, List.cons_append]
    exact dropWhile_cons_neg (by decide)
  rw [h1]
  exact pyRstrip_append_cons (by decide) _ _

theorem parseLine_mt (v : List Char) :
    parseLine (monarchTokenKey ++ '=' :: v) =
      some (monarchTokenKey, pyRstrip v) := by
  unfold parseLine
  rw [pyStrip_mt_line]
  rw [if_pos]
  · unfold splitFirstEq
    rw [takeWhile_no_eq eq_not_mem_monarchTokenKey,
        dropWhile_no_eq eq_not_mem_monarchTokenKey]
    rfl
  · refine ⟨by simp, ?_, by simp⟩
    rw [monarchTokenKey_cons, List.cons_append]
    simp

/-! ### Lemmas about `readLines` -/

theorem splitNl_ne_nil (s : List Char) : splitNl s ≠ [] := by
  cases s with
  | nil => simp [splitNl]
  | cons c rest =>
    unfold splitNl
    by_cases hc : c = '\n'
    · simp [hc]
    · rw [if_neg hc]
      cases h : splitNl rest with
      | nil => simp
      | cons l ls => simp

theorem splitNl_no_nl {s : List Char} {l : List Char} (hl : l ∈ splitNl s) :
    '\n' ∉ l := by
  induction s generalizing l with
  | nil =>
    simp [splitNl] at hl
    simp [hl]
  | cons c rest ih =>
    unfold splitNl at hl
    by_cases hc : c = '\n'
    · rw [if_pos hc] at hl
      rcases List.mem_cons.mp hl with h1 | h1
      · simp [h1]
      · exact ih h1
    · rw [if_neg hc] at hl
      cases h : splitNl rest with
      | nil => exact absurd h (splitNl_ne_nil rest)
      | cons l0 ls =>
        rw [h] at hl
        rcases List.mem_cons.mp hl with h1 | h1
        · subst h1
          intro hmem
          rcases List.mem_cons.mp hmem with h2 | h2
          · exact hc h2.symm
          · exact ih (h ▸ List.mem_cons_self l0 ls) h2
        · exact ih (h ▸ List.mem_cons_of_mem l0 h1)

theorem nlTranslate_single (c : Char) :
    nlTranslate [c] = if c = '\r' then ['\n'] else [c] := rfl

theorem nlTranslate_cons2 (c d : Char) (rest : List Char) :
    nlTranslate (c :: d :: rest) =
      if c = '\r' then
        if d = '\n' then '\n' :: nlTranslate rest
        else '\n' :: nlTranslate (d :: rest)
      else c :: nlTranslate (d :: rest) := rfl

theorem splitNl_cons (c : Char) (rest : List Char) :
    splitNl (c :: rest) =
      if c = '\n' then [] :: splitNl rest
      else
        match splitNl rest with
        | [] => [[c]]
        | l :: ls => (c :: l) :: ls := rfl

theorem nlTranslate_no_cr (s : List Char) : '\r' ∉ nlTranslate s := by
  induction s using nlTranslate.induct with
  | case1 => simp [nlTranslate]
  | case2 =>
    rw [nlTranslate_single, if_pos rfl]
    simp
  | case3 c hc =>
    rw [nlTranslate_single, if_neg hc]
    intro hmem
    exact hc (List.mem_singleton.mp hmem).symm
  | case4 rest ih =>
    rw [nlTranslate_cons2, if_pos rfl, if_pos rfl]
    intro hmem
    rcases List.mem_cons.mp hmem with h1 | h1
    · simp at h1
    · exact ih h1
  | case5 d rest hd ih =>
    rw [nlTranslate_cons2, if_pos rfl, if_neg hd]
    intro hmem
    rcases List.mem_cons.mp hmem with h1 | h1
    · simp at h1
    · exact ih h1
  | case6 c d rest hc ih =>
    rw [nlTranslate_cons2, if_neg hc]
    intro hmem
    rcases List.mem_cons.mp hmem with h1 | h1
    · exact hc h1.symm
    · exact ih h1

theorem nlTranslate_of_no_cr {s : List Char} (h : '\r' ∉ s) :
    nlTranslate s = s := by
  induction s using nlTranslate.induct with
  | case1 => rfl
  | case2 => exact absurd (by simp) h
  | case3 c hc => rw [nlTranslate_single, if_neg hc]
  | case4 rest ih => exact absurd (by simp) h
  | case5 d rest hd ih => exact absurd (by simp) h
  | case6 c d rest hc ih =>
    rw [nlTranslate_cons2, if_neg hc,
        ih (fun hh => h (List.mem_cons_of_mem c hh))]

theorem splitNl_append_nl {l : List Char} (hl : '\n' ∉ l) (rest : List Char) :
    splitNl (l ++ '\n' :: rest) = l :: splitNl rest := by
  induction l with
  | nil => rw [List.nil_append, splitNl_cons, if_pos rfl]
  | cons c t ih =>
    have hc : c ≠ '\n' := fun hh => hl (by simp [hh])
    have ht : '\n' ∉ t := fun hh => hl (List.mem_cons_of_mem c hh)
    rw [List.cons_append, splitNl_cons, if_neg hc, ih ht]

theorem dropTrailingEmpty_append_nil (ls : List (List Char)) :
    dropTrailingEmpty (ls ++ [[]]) = ls := by
  induction ls with
  | nil => simp [dropTrailingEmpty]
  | cons a ls2 ih =>
    cases ls2 with
    | nil => simp [dropTrailingEmpty]
    | cons b bs =>
      rw [List.cons_append]
      show dropTrailingEmpty (a :: ((b :: bs) ++ [[]])) = a :: b :: bs
      rw [List.cons_append]
      unfold dropTrailingEmpty
      rw [← List.cons_append, ih]

theorem readLines_flatten (ls : List (List Char))
    (h : ∀ l ∈ ls, lineSafe l = true) :
    readLines ((ls.map (fun l => l ++ ['\n'])).flatten) = ls := by
  unfold readLines
  have hnocr : '\r' ∉ (ls.map (fun l => l ++ ['\n'])).flatten := by
    intro hmem
    rw [List.mem_flatten] at hmem
    obtain ⟨x, hx, hcx⟩ := hmem
    rw [List.mem_map] at hx
    obtain ⟨l, hl, rfl⟩ := hx
    rcases List.mem_append.mp hcx with h1 | h1
    · exact ((lineSafe_iff.mp (h l hl)) '\r' h1).2 rfl
    · simp at h1
  rw [nlTranslate_of_no_cr hnocr]
  have hsplit : splitNl ((ls.map (fun l => l ++ ['\n'])).flatten) = ls ++ [[]] := by
    clear hnocr
    induction ls with
    | nil => rfl
    | cons l ls2 ih =>
      have hl : '\n' ∉ l := fun hh => ((lineSafe_iff.mp (h l (by simp))) '\n' hh).1 rfl
      have hfl : ((l :: ls2).map (fun l => l ++ ['\n'])).flatten =
          l ++ '\n' :: ((ls2.map (fun l => l ++ ['\n'])).flatten) := by
        simp
      rw [hfl, splitNl_append_nl hl,
          ih (fun x hx => h x (List.mem_cons_of_mem l hx))]
      rfl
  rw [hsplit, dropTrailingEmpty_append_nil]

theorem readLines_safe (content : List Char) :
    ∀ l ∈ readLines content, lineSafe l = true := by
  intro l hl
  unfold readLines at hl
  have hsub : ∀ x ∈ dropTrailingEmpty (splitNl (nlTranslate content)),
      x ∈ splitNl (nlTranslate content) := by
    intro x
    generalize splitNl (nlTranslate content) = ls
    induction ls with
    | nil => simp [dropTrailingEmpty]
    | cons a ls2 ih =>
      cases ls2 with
      | nil =>
        unfold dropTrailingEmpty
        by_cases ha : a = []
        · simp [ha]
        · rw [if_neg ha]
          simp
      | cons b bs =>
        unfold dropTrailingEmpty
        intro hx
        rcases List.mem_cons.mp hx with h1 | h1
        · simp [h1]
        · exact List.mem_cons_of_mem a (ih h1)
  have hmem := hsub l hl
  rw [lineSafe_iff]
  intro c hc
  constructor
  · intro hcn
    exact splitNl_no_nl hmem (hcn ▸ hc)
  · intro hcr
    have : '\r' ∈ nlTranslate content := by
      have hsub2 : l.Sublist (nlTranslate content) ∨ True := Or.inr trivial
      -- every character of a segment of splitNl s occurs in s
      clear hsub2
      have : ∀ (s : List Char) (x : List Char), x ∈ splitNl s → ∀ d ∈ x, d ∈ s := by
        intro s
        induction s with
        | nil =>
          intro x hx d hd
          simp [splitNl] at hx
          subst hx
          simp at hd
        | cons a rest ih =>
          intro x hx d hd
          unfold splitNl at hx
          by_cases ha : a = '\n'
          · rw [if_pos ha] at hx
            rcases List.mem_cons.mp hx with h1 | h1
            · subst h1
              simp at hd
            · exact List.mem_cons_of_mem a (ih x h1 d hd)
          · rw [if_neg ha] at hx
            cases hsp : splitNl rest with
            | nil => exact absurd hsp (splitNl_ne_nil rest)
            | cons l0 ls =>
              rw [hsp] at hx
              rcases List.mem_cons.mp hx with h1 | h1
              · subst h1
                rcases List.mem_cons.mp hd with h2 | h2
                · simp [h2]
                · exact List.mem_cons_of_mem a
                    (ih l0 (hsp ▸ List.mem_cons_self l0 ls) d h2)
              · exact List.mem_cons_of_mem a
                  (ih x (hsp ▸ List.mem_cons_of_mem l0 h1) d hd)
      exact this (nlTranslate content) l hmem '\r' (hcr ▸ hc)
    exact nlTranslate_no_cr content this

/-! ### Lemmas about the association-list dict operations -/

theorem hasKey_iff {m : EnvMap} {k : List Char} :
    hasKey m k = true ↔ ∃ p ∈ m, p.1 = k := by
  unfold hasKey
  rw [List.any_eq_true]
  constructor
  · rintro ⟨p, hp, hpk⟩
    exact ⟨p, hp, of_decide_eq_true hpk⟩
  · rintro ⟨p, hp, hpk⟩
    exact ⟨p, hp, decide_eq_true hpk⟩

theorem hasKey_false_iff {m : EnvMap} {k : List Char} :
    hasKey m k = false ↔ ∀ p ∈ m, p.1 ≠ k := by
  rw [← Bool.not_eq_true, hasKey_iff]
  push_neg
  rfl

theorem lookupA_nil (k : List Char) : lookupA [] k = none := rfl

theorem lookupA_cons (p : List Char × List Char) (rest : EnvMap)
    (k : List Char) :
    lookupA (p :: rest) k = if p.1 = k then some p.2 else lookupA rest k := rfl

theorem lookupA_none_of_hasKey_false {m : EnvMap} {k : List Char}
    (h : hasKey m k = false) : lookupA m k = none := by
  induction m with
  | nil => rfl
  | cons p rest ih =>
    have hp : p.1 ≠ k := (hasKey_false_iff.mp h) p (by simp)
    have hrest : hasKey rest k = false := by
      rw [hasKey_false_iff]
      exact fun q hq => (hasKey_false_iff.mp h) q (List.mem_cons_of_mem p hq)
    rw [lookupA_cons, if_neg hp, ih hrest]

theorem lookupA_append (a b : EnvMap) (k : List Char) :
    lookupA (a ++ b) k =
      match lookupA a k with
      | some v => some v
      | none => lookupA b k := by
  induction a with
  | nil => rfl
  | cons p rest ih =>
    rw [List.cons_append, lookupA_cons, lookupA_cons]
    by_cases hp : p.1 = k
    · rw [if_pos hp, if_pos hp]
    · rw [if_neg hp, if_neg hp, ih]

theorem lookupA_upsert_self (m : EnvMap) (k v : List Char) :
    lookupA (upsertA m k v) k = some v := by
  unfold upsertA
  by_cases hm : hasKey m k
  · rw [if_pos hm]
    induction m with
    | nil => simp [hasKey] at hm
    | cons p rest ih =>
      by_cases hp : p.1 = k
      · rw [List.map_cons, if_pos hp, lookupA_cons, if_pos rfl]
      · rw [List.map_cons, if_neg hp, lookupA_cons, if_neg hp]
        refine ih ?_
        rcases hasKey_iff.mp hm with ⟨q, hq, hqk⟩
        rcases List.mem_cons.mp hq with h1 | h1
        · exact absurd (h1 ▸ hqk) hp
        · exact hasKey_iff.mpr ⟨q, h1, hqk⟩
  · rw [if_neg hm, lookupA_append,
        lookupA_none_of_hasKey_false (Bool.of_not_eq_true hm),
        lookupA_cons, if_pos rfl]

theorem lookupA_upsert_other (m : EnvMap) (k v k2 : List Char)
    (hne : k2 ≠ k) : lookupA (upsertA m k v) k2 = lookupA m k2 := by
  unfold upsertA
  by_cases hm : hasKey m k
  · rw [if_pos hm]
    clear hm
    induction m with
    | nil => rfl
    | cons p rest ih =>
      rw [List.map_cons]
      by_cases hp : p.1 = k
      · rw [if_pos hp]
        have hpk2 : p.1 ≠ k2 := by
          rw [hp]
          exact fun hh => hne hh.symm
        rw [lookupA_cons, lookupA_cons,
            if_neg (show ¬((k, v).1 = k2) from fun hh => hne hh.symm),
            if_neg hpk2]
        exact ih
      · rw [if_neg hp, lookupA_cons, lookupA_cons]
        by_cases hp2 : p.1 = k2
        · rw [if_pos hp2, if_pos hp2]
        · rw [if_neg hp2, if_neg hp2]
          exact ih
  · rw [if_neg hm, lookupA_append]
    have h1 : lookupA [(k, v)] k2 = none := by
      rw [lookupA_cons, if_neg (show ¬((k, v).1 = k2) from fun hh => hne hh.symm)]
      rfl
    rw [h1]
    cases lookupA m k2 <;> rfl

theorem upsert_keys (m : EnvMap) (k v : List Char) :
    (upsertA m k v).map Prod.fst =
      if hasKey m k then m.map Prod.fst else m.map Prod.fst ++ [k] := by
  unfold upsertA
  by_cases hm : hasKey m k
  · rw [if_pos hm, if_pos hm, List.map_map]
    refine List.map_congr_left ?_
    intro p hp
    by_cases hpk : p.1 = k
    · simp [hpk]
    · simp [hpk]
  · rw [if_neg hm, if_neg hm, List.map_append]
    rfl

theorem upsert_keys_nodup {m : EnvMap} (k v : List Char)
    (h : (m.map Prod.fst).Nodup) : ((upsertA m k v).map Prod.fst).Nodup := by
  rw [upsert_keys]
  by_cases hm : hasKey m k
  · rw [if_pos hm]
    exact h
  · rw [if_neg hm]
    rw [List.nodup_append]
    refine ⟨h, List.nodup_singleton k, ?_⟩
    intro x hx
    simp only [List.mem_singleton]
    intro hk
    subst hk
    rcases List.mem_map.mp hx with ⟨p, hp, hpk⟩
    exact absurd (hasKey_iff.mpr ⟨p, hp, hpk⟩)
      (by rw [Bool.of_not_eq_true hm]; simp)

theorem upsert_entries {m : EnvMap} {k v : List Char} {p : List Char × List Char}
    (hp : p ∈ upsertA m k v) : p ∈ m ∨ p = (k, v) := by
  unfold upsertA at hp
  by_cases hm : hasKey m k
  · rw [if_pos hm] at hp
    rcases List.mem_map.mp hp with ⟨q, hq, hqe⟩
    by_cases hqk : q.1 = k
    · rw [if_pos hqk] at hqe
      exact Or.inr hqe.symm
    · rw [if_neg hqk] at hqe
      exact Or.inl (hqe ▸ hq)
  · rw [if_neg hm] at hp
    rcases List.mem_append.mp hp with h1 | h1
    · exact Or.inl h1
    · exact Or.inr (List.mem_singleton.mp h1)

theorem hasKey_upsert_self (m : EnvMap) (k v : List Char) :
    hasKey (upsertA m k v) k = true := by
  unfold upsertA
  by_cases hm : hasKey m k
  · rw [if_pos hm]
    rcases hasKey_iff.mp hm with ⟨p, hp, hpk⟩
    refine hasKey_iff.mpr ⟨(k, v), ?_, rfl⟩
    have : (if p.1 = k then (k, v) else p) ∈
        m.map (fun q => if q.1 = k then (k, v) else q) :=
      List.mem_map_of_mem _ hp
    rwa [if_pos hpk] at this
  · rw [if_neg hm]
    exact hasKey_iff.mpr ⟨(k, v), List.mem_append_right m (by simp), rfl⟩

theorem eraseKey_hasKey (m : EnvMap) (k : List Char) :
    hasKey (eraseKeyA m k) k = false := by
  rw [hasKey_false_iff]
  intro p hp
  unfold eraseKeyA at hp
  have := List.of_mem_filter hp
  exact of_decide_eq_true this

theorem eraseKey_lookupA_other (m : EnvMap) (k k2 : List Char)
    (hne : k2 ≠ k) : lookupA (eraseKeyA m k) k2 = lookupA m k2 := by
  induction m with
  | nil => rfl
  | cons p rest ih =>
    unfold eraseKeyA
    by_cases hpk : p.1 = k
    · rw [List.filter_cons]
      have : ¬(decide (p.1 ≠ k) = true) := by simp [hpk]
      rw [if_neg this]
      have hpk2 : p.1 ≠ k2 := by
        rw [hpk]
        exact fun hh => hne hh.symm
      rw [lookupA_cons, if_neg hpk2]
      exact ih
    · rw [List.filter_cons]
      have : decide (p.1 ≠ k) = true := by simp [hpk]
      rw [if_pos this, lookupA_cons, lookupA_cons]
      by_cases hp2 : p.1 = k2
      · rw [if_pos hp2, if_pos hp2]
      · rw [if_neg hp2, if_neg hp2]
        exact ih

theorem eraseKey_entries {m : EnvMap} {k : List Char}
    {p : List Char × List Char} (hp : p ∈ eraseKeyA m k) : p ∈ m :=
  List.mem_of_mem_filter hp

theorem eraseKey_keys_nodup {m : EnvMap} (k : List Char)
    (h : (m.map Prod.fst).Nodup) : ((eraseKeyA m k).map Prod.fst).Nodup :=
  ((List.filter_sublist m).map Prod.fst).nodup h

/-! ### Lemmas about the parsing fold -/

theorem upsert_fresh {m : EnvMap} {k : List Char} (v : List Char)
    (h : hasKey m k = false) : upsertA m k v = m ++ [(k, v)] := by
  unfold upsertA
  rw [if_neg (by rw [h]; simp)]

theorem parseStep_some {line : List Char} {kv : List Char × List Char}
    (acc : EnvMap) (h : parseLine line = some kv) :
    parseStep acc line = upsertA acc kv.1 kv.2 := by
  unfold parseStep
  rw [h]

theorem parseStep_none {line : List Char} (acc : EnvMap)
    (h : parseLine line = none) : parseStep acc line = acc := by
  unfold parseStep
  rw [h]

theorem lastValStep_some {line : List Char} {kv : List Char × List Char}
    (k : List Char) (r : Option (List Char)) (h : parseLine line = some kv) :
    lastValStep k r line = if kv.1 = k then some kv.2 else r := by
  unfold lastValStep
  rw [h]

theorem lastValStep_none {line : List Char} (k : List Char)
    (r : Option (List Char)) (h : parseLine line = none) :
    lastValStep k r line = r := by
  unfold lastValStep
  rw [h]

theorem foldl_parseStep_append (lines : List (List Char)) (q acc : EnvMap)
    (h : List.Forall₂ (fun l p => parseLine l = some p) lines q)
    (hnd : (q.map Prod.fst).Nodup)
    (hdisj : ∀ p ∈ q, hasKey acc p.1 = false) :
    lines.foldl parseStep acc = acc ++ q := by
  induction h generalizing acc with
  | nil => simp
  | cons hlp htail ih =>
    rename_i l p lines2 q2
    rw [List.foldl_cons]
    have hstep : parseStep acc l = acc ++ [p] := by
      unfold parseStep
      rw [hlp]
      exact upsert_fresh p.2 (hdisj p (by simp))
    rw [hstep]
    have hnd2 : (q2.map Prod.fst).Nodup := by
      rw [List.map_cons] at hnd
      exact hnd.of_cons
    have hfresh : p.1 ∉ q2.map Prod.fst := by
      rw [List.map_cons] at hnd
      exact (List.nodup_cons.mp hnd).1
    have hdisj2 : ∀ p2 ∈ q2, hasKey (acc ++ [p]) p2.1 = false := by
      intro p2 hp2
      rw [hasKey_false_iff]
      intro q3 hq3
      rcases List.mem_append.mp hq3 with h1 | h1
      · exact (hasKey_false_iff.mp (hdisj p2 (List.mem_cons_of_mem p hp2))) q3 h1
      · rw [List.mem_singleton.mp h1]
        intro hcontra
        exact hfresh (hcontra ▸ List.mem_map_of_mem Prod.fst hp2)
    rw [ih (acc ++ [p]) hnd2 hdisj2, List.append_assoc]
    rfl

theorem parseEnvLines_eq (lines : List (List Char)) (q : EnvMap)
    (h : List.Forall₂ (fun l p => parseLine l = some p) lines q)
    (hnd : (q.map Prod.fst).Nodup) :
    parseEnvLines lines = q := by
  unfold parseEnvLines
  rw [foldl_parseStep_append lines q [] h hnd (fun p _ => rfl)]
  rfl

theorem foldl_lastValStep_general (k : List Char) (lines : List (List Char)) :
    ∀ r, lines.foldl (lastValStep k) r =
      match lines.foldl (lastValStep k) none with
      | some v => some v
      | none => r := by
  induction lines with
  | nil => intro r; rfl
  | cons l ls ih =>
    intro r
    rw [List.foldl_cons, List.foldl_cons, ih (lastValStep k r l),
        ih (lastValStep k none l)]
    cases hm : ls.foldl (lastValStep k) none with
    | some v => rfl
    | none =>
      cases hp : parseLine l with
      | none =>
        rw [lastValStep_none k r hp, lastValStep_none k none hp]
      | some kv =>
        rw [lastValStep_some k r hp, lastValStep_some k none hp]
        by_cases hk : kv.1 = k
        · rw [if_pos hk, if_pos hk]
        · rw [if_neg hk, if_neg hk]

theorem lookupA_foldl_parseStep (lines : List (List Char)) (k : List Char) :
    ∀ acc, lookupA (lines.foldl parseStep acc) k =
      match lastVal lines k with
      | some v => some v
      | none => lookupA acc k := by
  induction lines with
  | nil => intro acc; rfl
  | cons l ls ih =>
    intro acc
    rw [List.foldl_cons, ih (parseStep acc l)]
    have hlv : lastVal (l :: ls) k =
        match lastVal ls k with
        | some v => some v
        | none => lastValStep k none l := by
      unfold lastVal
      rw [List.foldl_cons, foldl_lastValStep_general k ls (lastValStep k none l)]
    rw [hlv]
    cases hm : lastVal ls k with
    | some v => rfl
    | none =>
      cases hp : parseLine l with
      | none =>
        rw [parseStep_none acc hp, lastValStep_none k none hp]
      | some kv =>
        rw [parseStep_some acc hp, lastValStep_some k none hp]
        by_cases hk : kv.1 = k
        · rw [if_pos hk, ← hk, lookupA_upsert_self]
        · rw [if_neg hk, lookupA_upsert_other acc kv.1 kv.2 k
            (fun hh => hk hh.symm)]

theorem lookupA_parseEnv (c : List Char) (k : List Char) :
    lookupA (parseEnv c) k = lastVal (readLines c) k := by
  unfold parseEnv parseEnvLines
  rw [lookupA_foldl_parseStep (readLines c) k []]
  show (match lastVal (readLines c) k with
    | some v => some v
    | none => none) = lastVal (readLines c) k
  cases lastVal (readLines c) k <;> rfl

theorem parseEnvLines_good (lines : List (List Char))
    (hsafe : ∀ l ∈ lines, lineSafe l = true) :
    (∀ p ∈ parseEnvLines lines, GoodEntry p) ∧
      ((parseEnvLines lines).map Prod.fst).Nodup := by
  unfold parseEnvLines
  suffices h : ∀ acc : EnvMap, (∀ p ∈ acc, GoodEntry p) →
      (acc.map Prod.fst).Nodup →
      (∀ p ∈ lines.foldl parseStep acc, GoodEntry p) ∧
        ((lines.foldl parseStep acc).map Prod.fst).Nodup by
    exact h [] (by simp) (by simp)
  induction lines with
  | nil =>
    intro acc hgood hnd
    exact ⟨hgood, hnd⟩
  | cons l ls ih =>
    intro acc hgood hnd
    rw [List.foldl_cons]
    have hls : ∀ x ∈ ls, lineSafe x = true :=
      fun x hx => hsafe x (List.mem_cons_of_mem l hx)
    refine ih hls (parseStep acc l) ?_ ?_
    · intro p hp
      unfold parseStep at hp
      cases hpl : parseLine l with
      | none =>
        rw [hpl] at hp
        exact hgood p hp
      | some kv =>
        rw [hpl] at hp
        rcases upsert_entries hp with h1 | h1
        · exact hgood p h1
        · subst h1
          exact goodEntry_of_parseLine (hsafe l (by simp)) (by rw [hpl])
    · unfold parseStep
      cases hpl : parseLine l with
      | none => exact hnd
      | some kv => exact upsert_keys_nodup kv.1 kv.2 hnd

theorem parseEnv_good (c : List Char) :
    (∀ p ∈ parseEnv c, GoodEntry p) ∧ ((parseEnv c).map Prod.fst).Nodup :=
  parseEnvLines_good (readLines c) (readLines_safe c)

theorem parseEnvOpt_good (fs : Option (List Char)) :
    (∀ p ∈ parseEnvOpt fs, GoodEntry p) ∧
      ((parseEnvOpt fs).map Prod.fst).Nodup := by
  cases fs with
  | none => exact ⟨by simp [parseEnvOpt], by simp [parseEnvOpt]⟩
  | some c => exact parseEnv_good c

/-! ### The render / re-parse round trip -/

theorem forall2_of_map {R : (List Char × List Char) → (List Char × List Char) → Prop}
    {m : EnvMap} {f g : (List Char × List Char) → (List Char × List Char)}
    (h : ∀ p ∈ m, R (f p) (g p)) :
    List.Forall₂ R (m.map f) (m.map g) := by
  induction m with
  | nil => exact List.Forall₂.nil
  | cons p rest ih =>
    rw [List.map_cons, List.map_cons]
    exact List.Forall₂.cons (h p (by simp))
      (ih (fun q hq => h q (List.mem_cons_of_mem p hq)))

theorem forall2_refl_entries {R : (List Char × List Char) → (List Char × List Char) → Prop}
    {m : EnvMap} (h : ∀ p ∈ m, R p p) : List.Forall₂ R m m := by
  induction m with
  | nil => exact List.Forall₂.nil
  | cons p rest ih =>
    exact List.Forall₂.cons (h p (by simp))
      (ih (fun q hq => h q (List.mem_cons_of_mem p hq)))

theorem forall2_append {R : (List Char × List Char) → (List Char × List Char) → Prop}
    {a b c d : EnvMap} (h1 : List.Forall₂ R a b) (h2 : List.Forall₂ R c d) :
    List.Forall₂ R (a ++ c) (b ++ d) := by
  induction h1 with
  | nil => exact h2
  | cons hx hxs ih => exact List.Forall₂.cons hx ih

theorem filterMap_parse_forall2 {lines : List (List Char)} {q : EnvMap}
    (h : List.Forall₂ (fun l p => parseLine l = some p) lines q) :
    lines.filterMap parseLine = q := by
  induction h with
  | nil => rfl
  | cons hx hxs ih =>
    rw [List.filterMap_cons, hx, ih]

/-- Each rendered entry parses back to its counterpart in `q` (which agrees on
keys and may only normalize the stored value), so the rewritten file's lines,
parsed pairs, and parsed mapping are all determined. -/
theorem reparse (M q : EnvMap)
    (hF : List.Forall₂
      (fun pm pq => parseLine (renderLine pm) = some pq) M q)
    (hsafe : ∀ pm ∈ M, lineSafe (renderLine pm) = true)
    (hnd : (q.map Prod.fst).Nodup) :
    readLines (render M) = M.map renderLine ∧
      (M.map renderLine).filterMap parseLine = q ∧
      parseEnv (render M) = q := by
  have hlines : readLines (render M) = M.map renderLine := by
    unfold render
    have hmm : M.map (fun p => renderLine p ++ ['\n']) =
        (M.map renderLine).map (fun l => l ++ ['\n']) := by
      rw [List.map_map]
      rfl
    rw [hmm]
    refine readLines_flatten (M.map renderLine) ?_
    intro l hl
    rcases List.mem_map.mp hl with ⟨p, hp, rfl⟩
    exact hsafe p hp
  have hF2 : List.Forall₂ (fun l p => parseLine l = some p) (M.map renderLine) q := by
    clear hsafe hnd hlines
    induction hF with
    | nil => exact List.Forall₂.nil
    | cons hx hxs ih => exact List.Forall₂.cons hx ih
  refine ⟨hlines, filterMap_parse_forall2 hF2, ?_⟩
  unfold parseEnv
  rw [hlines]
  exact parseEnvLines_eq _ q hF2 hnd

/-- The pair list obtained by re-parsing the file written by `save_token`:
every entry of the old mapping survives with its key, and the reserved key
holds the right-stripped token. -/
theorem save_reparse (fs : Option (List Char)) (token : List Char)
    (htok : lineSafe token = true) :
    readLines (saveTokenFile fs token) =
        (upsertA (parseEnvOpt fs) monarchTokenKey token).map renderLine ∧
      ((upsertA (parseEnvOpt fs) monarchTokenKey token).map renderLine).filterMap
          parseLine =
        upsertA (parseEnvOpt fs) monarchTokenKey (pyRstrip token) ∧
      parseEnv (saveTokenFile fs token) =
        upsertA (parseEnvOpt fs) monarchTokenKey (pyRstrip token) := by
  have hgood := (parseEnvOpt_good fs).1
  have hnd := (parseEnvOpt_good fs).2
  set m := parseEnvOpt fs with hm
  have hF : List.Forall₂ (fun pm pq => parseLine (renderLine pm) = some pq)
      (upsertA m monarchTokenKey token)
      (upsertA m monarchTokenKey (pyRstrip token)) := by
    unfold upsertA
    by_cases hk : hasKey m monarchTokenKey
    · rw [if_pos hk, if_pos hk]
      refine forall2_of_map ?_
      intro p hp
      by_cases hpk : p.1 = monarchTokenKey
      · rw [if_pos hpk, if_pos hpk]
        exact parseLine_mt token
      · rw [if_neg hpk, if_neg hpk]
        exact (hgood p hp).1
    · rw [if_neg hk, if_neg hk]
      refine forall2_append (forall2_refl_entries ?_) ?_
      · exact fun p hp => (hgood p hp).1
      · exact List.Forall₂.cons (parseLine_mt token) List.Forall₂.nil
  have hsafe : ∀ pm ∈ upsertA m monarchTokenKey token,
      lineSafe (renderLine pm) = true := by
    intro pm hpm
    rcases upsert_entries hpm with h1 | h1
    · exact (hgood pm h1).2
    · subst h1
      show lineSafe (monarchTokenKey ++ '=' :: token) = true
      rw [show monarchTokenKey ++ '=' :: token =
            monarchTokenKey ++ ('=' :: token) from rfl,
          lineSafe_append, lineSafe_cons, htok, lineSafe_monarchTokenKey]
      simp
  have hnd2 := upsert_keys_nodup (m := m) monarchTokenKey (pyRstrip token) hnd
  have := reparse (upsertA m monarchTokenKey token)
    (upsertA m monarchTokenKey (pyRstrip token)) hF hsafe hnd2
  exact this

/-! ### Counting key occurrences -/

theorem countP_key_of_nodup (q : EnvMap) (k : List Char)
    (hnd : (q.map Prod.fst).Nodup) :
    q.countP (fun p => decide (p.1 = k)) = if hasKey q k then 1 else 0 := by
  induction q with
  | nil => rfl
  | cons p rest ih =>
    rw [List.map_cons, List.nodup_cons] at hnd
    rw [List.countP_cons]
    by_cases hpk : p.1 = k
    · have hrest : hasKey rest k = false := by
        rw [hasKey_false_iff]
        intro q2 hq2 hq2k
        exact hnd.1 (by
          rw [hpk, ← hq2k]
          exact List.mem_map_of_mem Prod.fst hq2)
      rw [ih hnd.2, hrest]
      have hhk : hasKey (p :: rest) k = true :=
        hasKey_iff.mpr ⟨p, by simp, hpk⟩
      rw [hhk]
      simp [hpk]
    · have hstep : hasKey (p :: rest) k = hasKey rest k := by
        unfold hasKey
        rw [List.any_cons]
        simp [hpk]
      rw [ih hnd.2, hstep]
      simp [hpk]

theorem countP_key_le_one (q : EnvMap) (k : List Char)
    (hnd : (q.map Prod.fst).Nodup) :
    q.countP (fun p => decide (p.1 = k)) ≤ 1 := by
  rw [countP_key_of_nodup q k hnd]
  by_cases h : hasKey q k
  · rw [if_pos h]
  · rw [if_neg h]
    omega

theorem hasKey_iff_mem_keys {m : EnvMap} {k : List Char} :
    hasKey m k = true ↔ k ∈ m.map Prod.fst := by
  rw [hasKey_iff]
  constructor
  · rintro ⟨p, hp, hpk⟩
    exact hpk ▸ List.mem_map_of_mem Prod.fst hp
  · intro h
    rcases List.mem_map.mp h with ⟨p, hp, hpk⟩
    exact ⟨p, hp, hpk⟩

theorem hasKey_upsert_mono {m : EnvMap} {k : List Char} (k2 v : List Char)
    (h : hasKey m k = true) : hasKey (upsertA m k2 v) k = true := by
  rw [hasKey_iff_mem_keys, upsert_keys]
  rw [hasKey_iff_mem_keys] at h
  by_cases hm : hasKey m k2
  · rw [if_pos hm]
    exact h
  · rw [if_neg hm]
    exact List.mem_append_left _ h

theorem hasKey_foldl_parseStep_mono {k : List Char} (lines : List (List Char)) :
    ∀ acc, hasKey acc k = true → hasKey (lines.foldl parseStep acc) k = true := by
  induction lines with
  | nil => exact fun acc h => h
  | cons l ls ih =>
    intro acc h
    rw [List.foldl_cons]
    refine ih (parseStep acc l) ?_
    unfold parseStep
    cases hp : parseLine l with
    | none => exact h
    | some kv => exact hasKey_upsert_mono kv.1 kv.2 h

theorem hasKey_of_mem_filterMap {lines : List (List Char)}
    {p : List Char × List Char} (hp : p ∈ lines.filterMap parseLine) :
    ∀ acc, hasKey (lines.foldl parseStep acc) p.1 = true := by
  induction lines with
  | nil => simp at hp
  | cons l ls ih =>
    intro acc
    rw [List.foldl_cons]
    rw [List.filterMap_cons] at hp
    cases hpl : parseLine l with
    | none =>
      rw [hpl] at hp
      exact ih hp (parseStep acc l)
    | some kv =>
      rw [hpl] at hp
      rcases List.mem_cons.mp hp with h1 | h1
      · subst h1
        rw [parseStep_some acc hpl]
        exact hasKey_foldl_parseStep_mono ls _ (hasKey_upsert_self acc p.1 p.2)
      · exact ih h1 (parseStep acc l)

theorem keyLines_zero_of_not_hasKey {c : List Char} {k : List Char}
    (h : hasKey (parseEnv c) k = false) : keyLines c k = 0 := by
  unfold keyLines
  rw [List.countP_eq_zero]
  intro p hp
  simp only [decide_eq_true_eq]
  intro hpk
  have := hasKey_of_mem_filterMap hp ([] : EnvMap)
  unfold parseEnv parseEnvLines at h
  rw [hpk] at this
  rw [h] at this
  simp at this

/-- A good mapping with distinct keys round-trips exactly through
render / read / parse. -/
theorem good_reparse (m : EnvMap) (hgood : ∀ p ∈ m, GoodEntry p)
    (hnd : (m.map Prod.fst).Nodup) :
    readLines (render m) = m.map renderLine ∧
      (m.map renderLine).filterMap parseLine = m ∧
      parseEnv (render m) = m :=
  reparse m m (forall2_refl_entries (fun p hp => (hgood p hp).1))
    (fun p hp => (hgood p hp).2) hnd

theorem lookupA_parseEnvOpt (fs : Option (List Char)) (k : List Char) :
    lookupA (parseEnvOpt fs) k = lastVal (readLines (contentOf fs)) k := by
  cases fs with
  | none => rfl
  | some c => exact lookupA_parseEnv c k

/-! ### Claim theorems -/

/-- C1 (corrected): for every starting file state and every token that
contains no newline and no carriage return, after `save_token(token)` the file
holds exactly one line whose parsed key is the reserved key, after a
`delete_token()` that leaves a file it holds none, and every other key parsed
from the previous file still parses to its previous value. (For tokens with
embedded line separators the claim fails, see the counterexample.) -/
theorem save_delete_env_invariant (fs : Option (List Char)) (token : List Char)
    (htok : lineSafe token = true) :
    keyLines (saveTokenFile fs token) monarchTokenKey = 1 ∧
    (∀ k, k ≠ monarchTokenKey →
      lookupA (parseEnv (saveTokenFile fs token)) k = lookupA (parseEnvOpt fs) k) ∧
    (∀ c2, deleteTokenFile fs = some c2 →
      keyLines c2 monarchTokenKey = 0 ∧
      ∀ k, k ≠ monarchTokenKey →
        lookupA (parseEnv c2) k = lookupA (parseEnvOpt fs) k) := by
  obtain ⟨hrl, hfm, hpe⟩ := save_reparse fs token htok
  refine ⟨?_, ?_, ?_⟩
  · unfold keyLines
    rw [hrl, hfm,
        countP_key_of_nodup _ _ (upsert_keys_nodup _ _ (parseEnvOpt_good fs).2),
        hasKey_upsert_self]
    simp
  · intro k hk
    rw [hpe]
    exact lookupA_upsert_other _ _ _ k hk
  · intro c2 hc2
    unfold deleteTokenFile at hc2
    by_cases hw : deleteTokenWrites fs
    · rw [if_pos hw] at hc2
      obtain rfl := Option.some.inj hc2
      obtain ⟨hrl2, hfm2, hpe2⟩ :=
        good_reparse (eraseKeyA (parseEnvOpt fs) monarchTokenKey)
          (fun p hp => (parseEnvOpt_good fs).1 p (eraseKey_entries hp))
          (eraseKey_keys_nodup _ (parseEnvOpt_good fs).2)
      constructor
      · unfold keyLines
        rw [hrl2, hfm2,
            countP_key_of_nodup _ _
              (eraseKey_keys_nodup _ (parseEnvOpt_good fs).2),
            eraseKey_hasKey]
        simp
      · intro k hk
        rw [hpe2]
        exact eraseKey_lookupA_other _ _ k hk
    · rw [if_neg hw] at hc2
      cases fs with
      | none => simp at hc2
      | some c =>
        have hcc : c = c2 := Option.some.inj hc2
        subst hcc
        have hfalse : hasKey (parseEnv c) monarchTokenKey = false :=
          Bool.of_not_eq_true hw
        refine ⟨keyLines_zero_of_not_hasKey hfalse, ?_⟩
        intro k hk
        rfl

/-- C1 witness: a concrete save over a pre-existing file, with the hypotheses
of `save_delete_env_invariant` discharged by evaluation. -/
theorem save_delete_env_invariant_witness :
    lineSafe "newtok".toList = true ∧
    keyLines (saveTokenFile (some "A=1\nMONARCH_TOKEN=old".toList)
      "newtok".toList) monarchTokenKey = 1 ∧
    lookupA (parseEnv (saveTokenFile (some "A=1\nMONARCH_TOKEN=old".toList)
        "newtok".toList)) "A".toList =
      lookupA (parseEnvOpt (some "A=1\nMONARCH_TOKEN=old".toList)) "A".toList := by
  have h := save_delete_env_invariant (some "A=1\nMONARCH_TOKEN=old".toList)
    "newtok".toList (by decide)
  exact ⟨by decide, h.1, h.2.1 "A".toList (by decide)⟩

/-- C1 counterexample: with the starting file `OTHER=w\nMONARCH_TOKEN=old`,
saving the token `"x\nOTHER=z"` (a string the type of `save_token` admits)
changes the value the file holds for the unrelated key `OTHER` from `w` to
`z`, so the claim as stated — for every token — is false. -/
theorem save_newline_token_clobbers_other_key :
    lookupA (parseEnv "OTHER=w\nMONARCH_TOKEN=old".toList) "OTHER".toList =
      some "w".toList ∧
    lookupA (parseEnv (saveTokenFile (some "OTHER=w\nMONARCH_TOKEN=old".toList)
        "x\nOTHER=z".toList)) "OTHER".toList = some "z".toList := by
  decide

/-- C2 (corrected): when the reserved key is present, `delete_token` rewrites
the file to exactly the other parsed key/value pairs: the reserved pair is
gone, every other parsed pair survives with its value, but the rewrite is
built from the parsed mapping, so comment lines, blank lines and lines
without `=` do not survive (see the counterexample). -/
theorem delete_removes_only_reserved_pair (c : List Char)
    (h : hasKey (parseEnv c) monarchTokenKey = true) :
    deleteTokenFile (some c) =
      some (render (eraseKeyA (parseEnv c) monarchTokenKey)) ∧
    parseEnv (render (eraseKeyA (parseEnv c) monarchTokenKey)) =
      eraseKeyA (parseEnv c) monarchTokenKey ∧
    keyLines (render (eraseKeyA (parseEnv c) monarchTokenKey))
      monarchTokenKey = 0 ∧
    ∀ k, k ≠ monarchTokenKey →
      lookupA (parseEnv (render (eraseKeyA (parseEnv c) monarchTokenKey))) k =
        lookupA (parseEnv c) k := by
  obtain ⟨hrl2, hfm2, hpe2⟩ :=
    good_reparse (eraseKeyA (parseEnv c) monarchTokenKey)
      (fun p hp => (parseEnv_good c).1 p (eraseKey_entries hp))
      (eraseKey_keys_nodup _ (parseEnv_good c).2)
  refine ⟨?_, hpe2, ?_, ?_⟩
  · unfold deleteTokenFile
    rw [if_pos (show deleteTokenWrites (some c) = true from h)]
    rfl
  · unfold keyLines
    rw [hrl2, hfm2,
        countP_key_of_nodup _ _ (eraseKey_keys_nodup _ (parseEnv_good c).2),
        eraseKey_hasKey]
    simp
  · intro k hk
    rw [hpe2]
    exact eraseKey_lookupA_other _ _ k hk

/-- C2 witness: deleting from a concrete file that holds the reserved key,
with the hypothesis discharged by evaluation. -/
theorem delete_removes_only_reserved_pair_witness :
    hasKey (parseEnv "B=2\nMONARCH_TOKEN=t".toList) monarchTokenKey = true ∧
    deleteTokenFile (some "B=2\nMONARCH_TOKEN=t".toList) =
      some (render (eraseKeyA (parseEnv "B=2\nMONARCH_TOKEN=t".toList)
        monarchTokenKey)) ∧
    lookupA (parseEnv (render (eraseKeyA
        (parseEnv "B=2\nMONARCH_TOKEN=t".toList) monarchTokenKey)))
        "B".toList =
      lookupA (parseEnv "B=2\nMONARCH_TOKEN=t".toList) "B".toList := by
  have h := delete_removes_only_reserved_pair "B=2\nMONARCH_TOKEN=t".toList
    (by decide)
  exact ⟨by decide, h.1, h.2.2.2 "B".toList (by decide)⟩

/-- C2 counterexample: the comment line `# keep me` is a line of the starting
file but not of the file `delete_token` rewrites, so "every other line of the
file (including comment lines and lines without '=') survives" is false. -/
theorem delete_token_drops_comment_line :
    deleteTokenFile (some "# keep me\nMONARCH_TOKEN=t\nA=1".toList) =
      some "A=1\n".toList ∧
    "# keep me".toList ∈ readLines "# keep me\nMONARCH_TOKEN=t\nA=1".toList ∧
    "# keep me".toList ∉ readLines "A=1\n".toList := by
  decide

/-- C3 (corrected): `load_token` returns the value of the `MONARCH_TOKEN`
environment variable when it is set to a non-empty string, and returns absent
when the variable is unset or set to the empty string (Python truthiness); it
is a total function of the environment — the file plays no role and nothing
can raise. (The claim as stated promises the current value whenever the
variable is set, which fails for the empty string, see the counterexample.) -/
theorem loadToken_spec (env : String → Option String) :
    (∀ t, env MONARCH_TOKEN_ENV_VAR = some t → t ≠ "" →
      loadToken env = some t) ∧
    (env MONARCH_TOKEN_ENV_VAR = none → loadToken env = none) ∧
    (env MONARCH_TOKEN_ENV_VAR = some "" → loadToken env = none) := by
  refine ⟨?_, ?_, ?_⟩
  · intro t ht hne
    unfold loadToken
    rw [ht]
    show (if t = "" then none else some t) = some t
    rw [if_neg hne]
  · intro h
    unfold loadToken
    rw [h]
  · intro h
    unfold loadToken
    rw [h]
    show (if ("" : String) = "" then (none : Option String) else some "") = none
    rw [if_pos rfl]

/-- C3 witness: concrete environments exercising all three branches of
`loadToken_spec`. -/
theorem loadToken_spec_witness :
    loadToken (fun k => if k = "MONARCH_TOKEN" then some "tok123" else none) =
      some "tok123" ∧
    loadToken (fun _ => (none : Option String)) = none ∧
    loadToken (fun k => if k = "MONARCH_TOKEN" then some "" else none) =
      none := by
  refine ⟨?_, ?_, ?_⟩
  · exact (loadToken_spec
      (fun k => if k = "MONARCH_TOKEN" then some "tok123" else none)).1
      "tok123" (by decide) (by decide)
  · exact (loadToken_spec (fun _ => (none : Option String))).2.1 rfl
  · exact (loadToken_spec
      (fun k => if k = "MONARCH_TOKEN" then some "" else none)).2.2 (by decide)

/-- C3 counterexample: with `MONARCH_TOKEN` set to the empty string the
variable is set, yet `load_token` does not return its current value `""` —
it returns absent — so "returns the current value ... returns absent when it
is unset" is false as stated. -/
theorem loadToken_empty_string_counterexample :
    (fun k => if k = "MONARCH_TOKEN" then some "" else none : String → Option String)
        "MONARCH_TOKEN" = some "" ∧
    loadToken (fun k => if k = "MONARCH_TOKEN" then some "" else none) ≠
      some "" := by
  decide

/-- C4 (confirmed): when the reserved key is absent from the parsed file,
`delete_token` performs no rewrite and the file state is unchanged
byte-for-byte. -/
theorem delete_absent_no_rewrite (fs : Option (List Char))
    (h : hasKey (parseEnvOpt fs) monarchTokenKey = false) :
    deleteTokenFile fs = fs ∧ deleteTokenWrites fs = false := by
  refine ⟨?_, h⟩
  unfold deleteTokenFile
  have hw : deleteTokenWrites fs = false := h
  rw [hw]
  rfl

/-- C4 witness: a file that mentions the reserved key only inside a comment is
untouched by delete. -/
theorem delete_absent_no_rewrite_witness :
    hasKey (parseEnvOpt (some "A=1\n# MONARCH_TOKEN=hidden".toList))
      monarchTokenKey = false ∧
    deleteTokenFile (some "A=1\n# MONARCH_TOKEN=hidden".toList) =
      some "A=1\n# MONARCH_TOKEN=hidden".toList := by
  have h := delete_absent_no_rewrite
    (some "A=1\n# MONARCH_TOKEN=hidden".toList) (by decide)
  exact ⟨by decide, h.1⟩

/-- C5 (confirmed): an underlying I/O failure (read or write) makes
`save_token` propagate exactly that error, while `delete_token` returns a
plain file state in every case, client construction failure is converted to
an absent client, and cleanup failures leave the state and control flow
intact. -/
theorem error_policy_save_raises_others_suppress (E : Type) (e : E)
    (w : Option E) (fs : Option (List Char)) (token : List Char)
    (env : String → Option String) (sfs : SimpleFS) :
    saveTokenRun ⟨some e, w⟩ fs token = Except.error e ∧
    saveTokenRun ⟨none, some e⟩ fs token = Except.error e ∧
    deleteTokenRun ⟨some e, w⟩ fs = fs ∧
    deleteTokenRun (⟨none, some e⟩ : IOOracle E) fs = fs ∧
    getAuthenticatedClient env
      (fun _ => (Except.error e : Except E MonarchMoney)) = none ∧
    cleanupOldSessionFiles (fun _ => true) sfs = sfs := by
  refine ⟨rfl, rfl, rfl, ?_, ?_, rfl⟩
  · show (match (if deleteTokenWrites fs = true then
          (Except.error e : Except E (Option (List Char)))
        else Except.ok fs) with
      | Except.ok fs2 => fs2
      | Except.error _ => fs) = fs
    by_cases hw : deleteTokenWrites fs
    · rw [if_pos hw]
    · rw [if_neg hw]
  · unfold getAuthenticatedClient
    cases loadToken env with
    | none => rfl
    | some t => rfl

/-- C6 (confirmed): with the environment variable unset the client is absent;
set to a non-empty string, the client is the one constructed from that token,
and a construction failure yields an absent client. -/
theorem getAuthenticatedClient_spec (E : Type) (env : String → Option String)
    (mk : String → Except E MonarchMoney) :
    (env MONARCH_TOKEN_ENV_VAR = none → getAuthenticatedClient env mk = none) ∧
    (∀ t, env MONARCH_TOKEN_ENV_VAR = some t → t ≠ "" →
      (∀ c, mk t = Except.ok c → getAuthenticatedClient env mk = some c) ∧
      (∀ e2, mk t = Except.error e2 →
        getAuthenticatedClient env mk = none)) := by
  constructor
  · intro h
    unfold getAuthenticatedClient loadToken
    rw [h]
  · intro t ht hne
    constructor
    · intro c hc
      unfold getAuthenticatedClient loadToken
      rw [ht]
      show (match (if t = "" then none else some t) with
        | none => none
        | some t2 =>
          match mk t2 with
          | Except.ok c2 => some c2
          | Except.error _ => none) = some c
      rw [if_neg hne]
      show (match mk t with
        | Except.ok c2 => some c2
        | Except.error _ => none) = some c
      rw [hc]
    · intro e2 he2
      unfold getAuthenticatedClient loadToken
      rw [ht]
      show (match (if t = "" then none else some t) with
        | none => none
        | some t2 =>
          match mk t2 with
          | Except.ok c2 => some c2
          | Except.error _ => none) = none
      rw [if_neg hne]
      show (match mk t with
        | Except.ok c2 => some c2
        | Except.error _ => none) = none
      rw [he2]

/-- C6 witness: a concrete environment with a non-empty token and an
always-succeeding constructor, plus the unset and failing-constructor cases. -/
theorem getAuthenticatedClient_spec_witness :
    getAuthenticatedClient
        (fun k => if k = "MONARCH_TOKEN" then some "tok123" else none)
        (fun s => (Except.ok ⟨s⟩ : Except Unit MonarchMoney)) =
      some ⟨"tok123"⟩ ∧
    getAuthenticatedClient (fun _ => (none : Option String))
        (fun s => (Except.ok ⟨s⟩ : Except Unit MonarchMoney)) = none ∧
    getAuthenticatedClient
        (fun k => if k = "MONARCH_TOKEN" then some "tok123" else none)
        (fun _ => (Except.error () : Except Unit MonarchMoney)) = none := by
  refine ⟨?_, ?_, ?_⟩
  · exact ((getAuthenticatedClient_spec Unit
      (fun k => if k = "MONARCH_TOKEN" then some "tok123" else none)
      (fun s => Except.ok ⟨s⟩)).2 "tok123" (by decide) (by decide)).1
      ⟨"tok123"⟩ rfl
  · exact (getAuthenticatedClient_spec Unit (fun _ => none)
      (fun s => Except.ok ⟨s⟩)).1 rfl
  · exact ((getAuthenticatedClient_spec Unit
      (fun k => if k = "MONARCH_TOKEN" then some "tok123" else none)
      (fun _ => Except.error ())).2 "tok123" (by decide) (by decide)).2
      () rfl

/-- C7 (corrected): for a token with no line separators and no trailing
Python whitespace, saving into a missing file creates a file whose parsed
content is exactly the single reserved pair (and whose single line is
`MONARCH_TOKEN=token`). Tokens with trailing whitespace or embedded line
separators do not round-trip, see the counterexample. -/
theorem save_creates_single_pair (token : List Char)
    (hsafe : lineSafe token = true) (hr : pyRstrip token = token) :
    parseEnv (saveTokenFile none token) = [(monarchTokenKey, token)] ∧
    readLines (saveTokenFile none token) = [monarchTokenKey ++ '=' :: token] := by
  obtain ⟨hrl, hfm, hpe⟩ := save_reparse none token hsafe
  constructor
  · rw [hpe]
    show upsertA [] monarchTokenKey (pyRstrip token) = _
    rw [hr]
    rfl
  · rw [hrl]
    rfl

/-- C7 witness: saving a plain token into a missing file. -/
theorem save_creates_single_pair_witness :
    parseEnv (saveTokenFile none "abc123".toList) =
      [(monarchTokenKey, "abc123".toList)] :=
  (save_creates_single_pair "abc123".toList (by decide) (by decide)).1

/-- C7 counterexample: the token `"x "` (trailing blank) is written verbatim
but parses back as `"x"`, so the parsed content is not the pair
`MONARCH_TOKEN ↦ "x "` and the claim fails for this token string. -/
theorem save_trailing_space_token_not_roundtrip :
    parseEnv (saveTokenFile none "x ".toList) ≠
      [(monarchTokenKey, "x ".toList)] := by
  decide

/-- C8 (confirmed): each legacy path is deleted when it is an existing file,
removed when it is an existing empty directory, left alone when missing or a
non-empty directory (without raising), and all three fixed paths are
processed in order no matter which of them fail. -/
theorem cleanup_legacy_spec (fail : String → Bool) (fs : SimpleFS) :
    (∀ p, fail p = false → isfile fs p = true →
      cleanupStep fail fs p = removeFile fs p) ∧
    (∀ p, fail p = false → isfile fs p = false → isdir fs p = true →
      dirEmpty fs p = true → cleanupStep fail fs p = rmdir fs p) ∧
    (∀ p, pexists fs p = false → cleanupStep fail fs p = fs) ∧
    (∀ p, isfile fs p = false → isdir fs p = true → dirEmpty fs p = false →
      cleanupStep fail fs p = fs) ∧
    cleanupOldSessionFiles fail fs =
      cleanupStep fail (cleanupStep fail (cleanupStep fail fs
        ".mm/mm_session.pickle") "monarch_session.json") ".mm" := by
  refine ⟨?_, ?_, ?_, ?_, rfl⟩
  · intro p hfail hfile
    unfold cleanupStep
    rw [hfail]
    have hex : pexists fs p = true := by
      unfold pexists
      rw [hfile]
      rfl
    rw [hex, hfile]
    rfl
  · intro p hfail hfile hdir hempty
    unfold cleanupStep
    rw [hfail]
    have hex : pexists fs p = true := by
      unfold pexists
      rw [hfile, hdir]
      rfl
    rw [hex, hfile, hdir, hempty]
    rfl
  · intro p hex
    unfold cleanupStep
    cases hf : fail p with
    | true => rfl
    | false =>
      rw [hex]
      rfl
  · intro p hfile hdir hempty
    unfold cleanupStep
    cases hf : fail p with
    | true => rfl
    | false =>
      have hex : pexists fs p = true := by
        unfold pexists
        rw [hfile, hdir]
        rfl
      rw [hex, hfile, hdir, hempty]
      rfl

/-- C8 witness: concrete file-system states exercising the file-removal,
empty-directory and missing-path branches. -/
theorem cleanup_legacy_spec_witness :
    cleanupStep (fun _ => false) (⟨["monarch_session.json"], []⟩ : SimpleFS)
        "monarch_session.json" =
      removeFile ⟨["monarch_session.json"], []⟩ "monarch_session.json" ∧
    cleanupStep (fun _ => false) (⟨[], [".mm"]⟩ : SimpleFS) ".mm" =
      rmdir ⟨[], [".mm"]⟩ ".mm" ∧
    cleanupStep (fun _ => false) (⟨[], []⟩ : SimpleFS) ".mm" =
      (⟨[], []⟩ : SimpleFS) := by
  refine ⟨?_, ?_, ?_⟩
  · exact (cleanup_legacy_spec (fun _ => false)
      ⟨["monarch_session.json"], []⟩).1 "monarch_session.json" rfl (by decide)
  · exact ((cleanup_legacy_spec (fun _ => false) ⟨[], [".mm"]⟩).2.1 ".mm"
      rfl (by decide) (by decide) (by decide))
  · exact ((cleanup_legacy_spec (fun _ => false) ⟨[], []⟩).2.2.1 ".mm"
      (by decide))

/-- C9 (confirmed): an empty-string value of the environment variable is
treated as absent by `load_token` (string truthiness), and consequently
`get_authenticated_client` is also absent. -/
theorem empty_env_token_absent (E : Type) (env : String → Option String)
    (mk : String → Except E MonarchMoney)
    (h : env MONARCH_TOKEN_ENV_VAR = some "") :
    loadToken env = none ∧ getAuthenticatedClient env mk = none := by
  have hl : loadToken env = none := by
    unfold loadToken
    rw [h]
    show (if ("" : String) = "" then (none : Option String) else some "") = none
    rw [if_pos rfl]
  refine ⟨hl, ?_⟩
  unfold getAuthenticatedClient
  rw [hl]

/-- C9 witness: a concrete environment with the variable set to `""`. -/
theorem empty_env_token_absent_witness :
    loadToken (fun k => if k = "MONARCH_TOKEN" then some "" else none) =
      none ∧
    getAuthenticatedClient
      (fun k => if k = "MONARCH_TOKEN" then some "" else none)
      (fun s => (Except.ok ⟨s⟩ : Except Unit MonarchMoney)) = none := by
  have h := empty_env_token_absent Unit
    (fun k => if k = "MONARCH_TOKEN" then some "" else none)
    (fun s => (Except.ok ⟨s⟩ : Except Unit MonarchMoney)) (by decide)
  exact ⟨h.1, h.2⟩

/-- C10 (corrected): after a rewrite by `save_token` with a token free of line
separators, and after every rewrite by `delete_token`, each key occurs on at
most one line of the file, and a key that occurred on several input lines
keeps the value of the last such line (tokens with embedded line separators
can produce duplicate key lines, see the counterexample). -/
theorem rewrite_collapses_duplicate_keys (fs : Option (List Char))
    (token : List Char) (htok : lineSafe token = true) :
    (∀ k, keyLines (saveTokenFile fs token) k ≤ 1) ∧
    (∀ k, k ≠ monarchTokenKey →
      lookupA (parseEnv (saveTokenFile fs token)) k =
        lastVal (readLines (contentOf fs)) k) ∧
    (∀ c2, deleteTokenWrites fs = true → deleteTokenFile fs = some c2 →
      (∀ k, keyLines c2 k ≤ 1) ∧
      ∀ k, k ≠ monarchTokenKey →
        lookupA (parseEnv c2) k = lastVal (readLines (contentOf fs)) k) := by
  obtain ⟨hrl, hfm, hpe⟩ := save_reparse fs token htok
  refine ⟨?_, ?_, ?_⟩
  · intro k
    unfold keyLines
    rw [hrl, hfm]
    exact countP_key_le_one _ k (upsert_keys_nodup _ _ (parseEnvOpt_good fs).2)
  · intro k hk
    rw [hpe, lookupA_upsert_other _ _ _ k hk, lookupA_parseEnvOpt]
  · intro c2 hw hc2
    unfold deleteTokenFile at hc2
    rw [if_pos hw] at hc2
    obtain rfl := Option.some.inj hc2
    obtain ⟨hrl2, hfm2, hpe2⟩ :=
      good_reparse (eraseKeyA (parseEnvOpt fs) monarchTokenKey)
        (fun p hp => (parseEnvOpt_good fs).1 p (eraseKey_entries hp))
        (eraseKey_keys_nodup _ (parseEnvOpt_good fs).2)
    constructor
    · intro k
      unfold keyLines
      rw [hrl2, hfm2]
      exact countP_key_le_one _ k
        (eraseKey_keys_nodup _ (parseEnvOpt_good fs).2)
    · intro k hk
      rw [hpe2, eraseKey_lookupA_other _ _ k hk, lookupA_parseEnvOpt]

/-- C10 witness: saving over a file with a duplicated key `B` collapses it to
one line carrying the last value. -/
theorem rewrite_collapses_duplicate_keys_witness :
    keyLines (saveTokenFile (some "B=1\nB=2".toList) "t".toList)
      "B".toList ≤ 1 ∧
    lookupA (parseEnv (saveTokenFile (some "B=1\nB=2".toList) "t".toList))
        "B".toList =
      lastVal (readLines (contentOf (some "B=1\nB=2".toList))) "B".toList := by
  have h := rewrite_collapses_duplicate_keys (some "B=1\nB=2".toList)
    "t".toList (by decide)
  exact ⟨h.1 "B".toList, h.2.1 "B".toList (by decide)⟩

/-- C10 counterexample: saving the token `"x\nB=1\nB=2"` writes a file in
which the key `B` occurs on two lines, so "each key occurs at most once"
fails as stated, for every token. -/
theorem save_newline_token_duplicate_keys :
    keyLines (saveTokenFile none "x\nB=1\nB=2".toList) "B".toList = 2 := by
  decide

end SecureSession
